import Mathlib

/-!
Shallow embedding of the music synthesiser (`src/main.rs`).

The source renders a list of timed musical events into a sample buffer:
three floor-based oscillators (`square`, `sawtooth`, `triangle`), an
equal-tempered pitch-to-frequency map, a buffer sized to
`floor(extent * sample_rate)`, and an additive render loop
`wave[sample] += level`.

Modelling choices:
* `f32` arithmetic is idealised as exact real arithmetic (`ℝ`).
* Rust's saturating float-to-`usize` cast (`x as usize`, which truncates
  toward zero and clamps negative values to 0) is `rust_as_usize`.
* The indexed write `wave[sample] += level` panics in Rust when the index
  is out of bounds; a panic is modelled as `none`, a completed render as
  `some buffer`.
* The event container (`LinkedList<MusicElement>`) is a `List`, pushed at
  the back, iterated front to back exactly as the source does.
-/

namespace Music

noncomputable section

/-- The `WaveFunction` enum of the source: the closed set of wave shapes. -/
inductive WaveFunction
  | Square
  | Sawtooth
  | Triangle

/-- The `MusicElement` struct: one scheduled event. -/
structure MusicElement where
  function : WaveFunction
  time : ℝ
  duration : ℝ
  note : ℝ

/-- The `Generator` struct: the ordered collection of events. -/
structure Generator where
  elements : List MusicElement

/-- `fn square(t, f)`: `2.0 * (2.0 * (t * f).floor() - (2.0 * t * f).floor()) + 1.0`. -/
def square (t f : ℝ) : ℝ :=
  2 * (2 * (⌊t * f⌋ : ℝ) - (⌊2 * t * f⌋ : ℝ)) + 1

/-- `fn sawtooth(t, f)`: `2.0 * (t * f - (1.0 / 2.0 + t * f).floor())`. -/
def sawtooth (t f : ℝ) : ℝ :=
  2 * (t * f - (⌊1 / 2 + t * f⌋ : ℝ))

/-- `fn triangle(t, f)`: `2.0 * (2.0 * (t * f - (1.0 / 2.0 + t * f).floor())).abs() - 1.0`. -/
def triangle (t f : ℝ) : ℝ :=
  2 * |2 * (t * f - (⌊1 / 2 + t * f⌋ : ℝ))| - 1

/-- `fn apply_wave_function`: dispatch on the `WaveFunction` tag. -/
def apply_wave_function : WaveFunction → ℝ → ℝ → ℝ
  | WaveFunction.Square, t, f => square t f
  | WaveFunction.Sawtooth, t, f => sawtooth t f
  | WaveFunction.Triangle, t, f => triangle t f

/-- `fn get_frequency_from_note(note)`: `440.0 * 2.0f32.powf(note / 12.0)`. -/
def get_frequency_from_note (note : ℝ) : ℝ :=
  440 * (2 : ℝ) ^ (note / 12)

/-- Rust's `as usize` cast on a float: truncation toward zero, saturating
at 0 for negative inputs.  For `x ≥ 0` this is `⌊x⌋`; for `x < 0` it is `0`. -/
def rust_as_usize (x : ℝ) : ℕ :=
  ⌊x⌋.toNat

/-- `Generator::add_music_element`: pushes a new element at the back.
Total: no validation, no error condition. -/
def add_music_element (g : Generator) (function : WaveFunction) (time duration note : ℝ) :
    Generator :=
  ⟨g.elements ++ [⟨function, time, duration, note⟩]⟩

/-- One indexed accumulating write `wave[i] += v`.  Rust panics when
`i` is out of bounds; the panic is modelled as `none`. -/
def add_at (wave : List ℝ) (i : ℕ) (v : ℝ) : Option (List ℝ) :=
  if h : i < wave.length then some (wave.set i (wave.get ⟨i, h⟩ + v)) else none

/-- The inner sample loop of `render_elements`: writes `lvl k` at index
`first + k` for `k = k₀, k₀+1, …` over `n` remaining iterations
(`k` is the integer value of the `sample_time` counter). -/
def write_samples (lvl : ℕ → ℝ) (first : ℕ) : ℕ → ℕ → List ℝ → Option (List ℝ)
  | _, 0, wave => some wave
  | k, n + 1, wave =>
      match add_at wave (first + k) (lvl k) with
      | some w => write_samples lvl first (k + 1) n w
      | none => none

/-- The body of `render_elements` for one element: computes
`first_sample`, `last_sample = first_sample + (sr * duration) as usize`
and the frequency, then runs the sample loop with
`t = sample_time / sample_rate`. -/
def render_event (sample_rate : ℝ) (wave : List ℝ) (e : MusicElement) : Option (List ℝ) :=
  write_samples
    (fun k => apply_wave_function e.function ((k : ℝ) / sample_rate)
      (get_frequency_from_note e.note))
    (rust_as_usize (sample_rate * e.time)) 0
    (rust_as_usize (sample_rate * e.duration)) wave

/-- `Generator::render_elements`: folds `render_event` over the events in
order, threading the mutable buffer; `none` as soon as a write panics. -/
def render_elements (sample_rate : ℝ) : List MusicElement → List ℝ → Option (List ℝ)
  | [], wave => some wave
  | e :: rest, wave =>
      match render_event sample_rate wave e with
      | some w => render_elements sample_rate rest w
      | none => none

/-- The `global_time` fold of `Generator::create_wave` before silence is
added: starting from `0.0`, keep the larger of the accumulator and each
element's `time + duration`. -/
def global_extent (elements : List MusicElement) : ℝ :=
  elements.foldl (fun g e => if e.time + e.duration > g then e.time + e.duration else g) 0

/-- `Generator::create_wave`: a zero-filled buffer of
`((global_time + silence_time) * sample_rate) as usize` samples. -/
def create_wave (elements : List MusicElement) (sample_rate : ℕ) (silence_time : ℝ) :
    List ℝ :=
  List.replicate (rust_as_usize ((global_extent elements + silence_time) * (sample_rate : ℝ))) 0

/-- The in-memory part of `Generator::render`: `create_wave` then
`render_elements` (the final hand-off to the WAV writer is outside the
core and not modelled). -/
def render_timeline (elements : List MusicElement) (sample_rate : ℕ) (silence_time : ℝ) :
    Option (List ℝ) :=
  render_elements (sample_rate : ℝ) elements (create_wave elements sample_rate silence_time)

/-- `Generator::render` as a state-passing method on `&self`: it returns
the rendered buffer together with the (untouched) generator state, making
the absence of mutation of `self` explicit in the model. -/
def render (g : Generator) (sample_rate : ℕ) (silence_time : ℝ) :
    Option (List ℝ) × Generator :=
  (render_timeline g.elements sample_rate silence_time, g)

/-- The pointwise contribution of one event to buffer index `i`, as
computed by the loop of `render_elements`: nonzero exactly on
`[first_sample, last_sample)`, with local time `(i - first) / sample_rate`. -/
def event_contrib (sample_rate : ℝ) (e : MusicElement) (i : ℕ) : ℝ :=
  if rust_as_usize (sample_rate * e.time) ≤ i ∧
      i < rust_as_usize (sample_rate * e.time) + rust_as_usize (sample_rate * e.duration) then
    apply_wave_function e.function
      (((i - rust_as_usize (sample_rate * e.time) : ℕ) : ℝ) / sample_rate)
      (get_frequency_from_note e.note)
  else 0

/-- Total indexing into a buffer, defaulting to `0` out of range. -/
def nth (l : List ℝ) (i : ℕ) : ℝ :=
  l.getD i 0

end

/-! ## Buffer indexing lemmas -/

lemma nth_replicate (n i : ℕ) : nth (List.replicate n (0 : ℝ)) i = 0 := by
  unfold nth
  rcases lt_or_le i n with h | h
  · rw [List.getD_eq_getElem _ _ (by simpa using h)]
    simp
  · rw [List.getD_eq_getElem?_getD, List.getElem?_eq_none (by simpa using h)]
    rfl

lemma nth_eq_getElem (l : List ℝ) (i : ℕ) (h : i < l.length) : nth l i = l[i] :=
  List.getD_eq_getElem l 0 h

lemma nth_eq_zero_of_le (l : List ℝ) (i : ℕ) (h : l.length ≤ i) : nth l i = 0 := by
  unfold nth
  rw [List.getD_eq_getElem?_getD, List.getElem?_eq_none h]
  rfl

lemma nth_set (l : List ℝ) (i j : ℕ) (v : ℝ) :
    nth (l.set i v) j = if i = j ∧ j < l.length then v else nth l j := by
  unfold nth
  rw [List.getD_eq_getElem?_getD, List.getD_eq_getElem?_getD, List.getElem?_set]
  by_cases hij : i = j
  · subst hij
    by_cases hi : i < l.length
    · simp [hi]
    · simp [hi, List.getElem?_eq_none (le_of_not_lt hi)]
  · simp [hij]

/-! ## The sample-writing loop -/

/-- `add_at` succeeds exactly on in-bounds indices, and then performs the
accumulating write. -/
lemma add_at_lt (wave : List ℝ) (i : ℕ) (v : ℝ) (h : i < wave.length) :
    add_at wave i v = some (wave.set i (wave.get ⟨i, h⟩ + v)) := by
  unfold add_at
  rw [dif_pos h]

lemma add_at_ge (wave : List ℝ) (i : ℕ) (v : ℝ) (h : wave.length ≤ i) :
    add_at wave i v = none := by
  unfold add_at
  rw [dif_neg (not_lt.mpr h)]

/-- Characterisation of the inner sample loop: when the whole index range
fits in the buffer, the loop succeeds, preserves the length, and adds
`lvl k` at index `first + k` for each `k` in the written window. -/
lemma write_samples_spec (lvl : ℕ → ℝ) (first : ℕ) :
    ∀ (n k : ℕ) (wave : List ℝ), first + k + n ≤ wave.length →
      ∃ w, write_samples lvl first k n wave = some w ∧
        w.length = wave.length ∧
        ∀ i, nth w i =
          nth wave i + (if first + k ≤ i ∧ i < first + k + n then lvl (i - first) else 0) := by
  intro n
  induction n with
  | zero =>
      intro k wave _
      refine ⟨wave, rfl, rfl, fun i => ?_⟩
      rw [if_neg (by omega)]
      ring
  | succ n ih =>
      intro k wave hlen
      have hk : first + k < wave.length := by omega
      have hstep : write_samples lvl first k (n + 1) wave =
          write_samples lvl first (k + 1) n
            (wave.set (first + k) (wave.get ⟨first + k, hk⟩ + lvl k)) := by
        simp only [write_samples, add_at_lt wave (first + k) (lvl k) hk]
      have hlen' : first + (k + 1) + n ≤
          (wave.set (first + k) (wave.get ⟨first + k, hk⟩ + lvl k)).length := by
        rw [List.length_set]; omega
      obtain ⟨w, hw, hwlen, hwnth⟩ := ih (k + 1) _ hlen'
      refine ⟨w, by rw [hstep]; exact hw, by rw [hwlen, List.length_set], fun i => ?_⟩
      rw [hwnth i, nth_set]
      by_cases hieq : first + k = i
      · subst hieq
        rw [if_pos ⟨rfl, hk⟩, if_neg (by omega), if_pos (by omega)]
        have : nth wave (first + k) = wave.get ⟨first + k, hk⟩ :=
          nth_eq_getElem wave (first + k) hk
        rw [this]
        have : first + k - first = k := by omega
        rw [this]
        ring
      · rw [if_neg (by tauto)]
        by_cases hin : first + (k + 1) ≤ i ∧ i < first + (k + 1) + n
        · rw [if_pos hin, if_pos (by omega)]
        · rw [if_neg hin, if_neg (by omega)]

lemma floor_two_mul_eq (x : ℝ) : ⌊2 * x⌋ = 2 * ⌊x⌋ + ⌊2 * Int.fract x⌋ := by
  conv_lhs =>
    rw [show (2 : ℝ) * x = 2 * Int.fract x + ((2 * ⌊x⌋ : ℤ) : ℝ) by
      rw [Int.fract]; push_cast; ring]
  rw [Int.floor_add_int, add_comm]

lemma square_eq_ite (t f : ℝ) :
    square t f = if Int.fract (t * f) < 1 / 2 then 1 else -1 := by
  unfold square
  rw [show (2 : ℝ) * t * f = 2 * (t * f) by ring, floor_two_mul_eq]
  by_cases h : Int.fract (t * f) < 1 / 2
  · rw [if_pos h]
    have h0 : ⌊2 * Int.fract (t * f)⌋ = 0 := by
      rw [Int.floor_eq_zero_iff]
      refine Set.mem_Ico.mpr ⟨?_, ?_⟩
      · have := Int.fract_nonneg (t * f); linarith
      · linarith
    rw [h0]; push_cast; ring
  · rw [if_neg h]
    have h1 : ⌊2 * Int.fract (t * f)⌋ = 1 := by
      rw [Int.floor_eq_iff]
      push_cast
      constructor
      · linarith [not_lt.mp h]
      · have := Int.fract_lt_one (t * f); linarith
    rw [h1]; push_cast; ring

lemma sawtooth_eq_fract (t f : ℝ) :
    sawtooth t f = 2 * (Int.fract (t * f + 1 / 2) - 1 / 2) := by
  unfold sawtooth
  rw [Int.fract, add_comm (1 / 2 : ℝ) (t * f)]
  ring

lemma sawtooth_bounds (t f : ℝ) : -1 ≤ sawtooth t f ∧ sawtooth t f < 1 := by
  rw [sawtooth_eq_fract]
  have h0 := Int.fract_nonneg (t * f + 1 / 2)
  have h1 := Int.fract_lt_one (t * f + 1 / 2)
  constructor <;> linarith

lemma triangle_eq_abs_sawtooth (t f : ℝ) : triangle t f = 2 * |sawtooth t f| - 1 := rfl

lemma triangle_bounds (t f : ℝ) : -1 ≤ triangle t f ∧ triangle t f ≤ 1 := by
  rw [triangle_eq_abs_sawtooth]
  have h := sawtooth_bounds t f
  have habs : |sawtooth t f| ≤ 1 := abs_le.mpr ⟨h.1, le_of_lt h.2⟩
  have hnn : 0 ≤ |sawtooth t f| := abs_nonneg _
  constructor <;> linarith

/-! ## Rendering lemmas -/

lemma render_event_spec (sr : ℝ) (wave : List ℝ) (e : MusicElement)
    (h : rust_as_usize (sr * e.time) + rust_as_usize (sr * e.duration) ≤ wave.length) :
    ∃ w, render_event sr wave e = some w ∧ w.length = wave.length ∧
      ∀ i, nth w i = nth wave i + event_contrib sr e i := by
  obtain ⟨w, hw, hlen, hnth⟩ := write_samples_spec
    (fun k => apply_wave_function e.function ((k : ℝ) / sr) (get_frequency_from_note e.note))
    (rust_as_usize (sr * e.time)) (rust_as_usize (sr * e.duration)) 0 wave (by omega)
  refine ⟨w, hw, hlen, fun i => ?_⟩
  rw [hnth i]
  unfold event_contrib
  simp only [add_zero]

lemma render_elements_spec (sr : ℝ) :
    ∀ (es : List MusicElement) (wave : List ℝ),
      (∀ e ∈ es,
        rust_as_usize (sr * e.time) + rust_as_usize (sr * e.duration) ≤ wave.length) →
      ∃ w, render_elements sr es wave = some w ∧ w.length = wave.length ∧
        ∀ i, nth w i = nth wave i + (es.map (fun e => event_contrib sr e i)).sum := by
  intro es
  induction es with
  | nil =>
      intro wave _
      exact ⟨wave, rfl, rfl, fun i => by simp⟩
  | cons e rest ih =>
      intro wave hb
      obtain ⟨w1, hw1, hlen1, hnth1⟩ := render_event_spec sr wave e (hb e (by simp))
      obtain ⟨w, hw, hlen, hnth⟩ := ih w1 (fun e' he' => by
        rw [hlen1]; exact hb e' (by simp [he']))
      refine ⟨w, ?_, by rw [hlen, hlen1], fun i => ?_⟩
      · simp only [render_elements, hw1]
        exact hw
      · rw [hnth i, hnth1 i]
        simp only [List.map_cons, List.sum_cons]
        ring

/-! ## Buffer-extent lemmas -/

lemma global_extent_step (g : ℝ) (e : MusicElement) :
    (if e.time + e.duration > g then e.time + e.duration else g) =
      max g (e.time + e.duration) := by
  rcases lt_or_le g (e.time + e.duration) with h | h
  · rw [if_pos h, max_eq_right h.le]
  · rw [if_neg (not_lt.mpr h), max_eq_left h]

lemma global_extent_nil : global_extent [] = 0 := rfl

lemma global_extent_single (e : MusicElement) :
    global_extent [e] = max 0 (e.time + e.duration) := by
  unfold global_extent
  simp only [List.foldl_cons, List.foldl_nil, global_extent_step]

lemma global_extent_pair (e1 e2 : MusicElement) :
    global_extent [e1, e2] =
      max (max 0 (e1.time + e1.duration)) (e2.time + e2.duration) := by
  unfold global_extent
  simp only [List.foldl_cons, List.foldl_nil, global_extent_step]

/-- The sizing argument of `create_wave`: for an event with nonnegative
start and duration whose end lies below the extent, and nonnegative
trailing silence, `first_sample + (sr * duration) as usize` fits in the
allocated buffer (exact-arithmetic counterpart of `⌊a⌋+⌊b⌋ ≤ ⌊a+b⌋`). -/
lemma index_bound (sr : ℕ) (t d E s : ℝ) (ht : 0 ≤ t) (hd : 0 ≤ d)
    (hE : t + d ≤ E) (hs : 0 ≤ s) :
    rust_as_usize ((sr : ℝ) * t) + rust_as_usize ((sr : ℝ) * d) ≤
      rust_as_usize ((E + s) * (sr : ℝ)) := by
  unfold rust_as_usize
  have hsr : (0 : ℝ) ≤ (sr : ℝ) := Nat.cast_nonneg sr
  have h1 : (0 : ℤ) ≤ ⌊(sr : ℝ) * t⌋ := Int.floor_nonneg.mpr (by positivity)
  have h2 : (0 : ℤ) ≤ ⌊(sr : ℝ) * d⌋ := Int.floor_nonneg.mpr (by positivity)
  have hsum : ⌊(sr : ℝ) * t⌋ + ⌊(sr : ℝ) * d⌋ ≤ ⌊(E + s) * (sr : ℝ)⌋ := by
    apply Int.le_floor.mpr
    push_cast
    have hft := Int.floor_le ((sr : ℝ) * t)
    have hfd := Int.floor_le ((sr : ℝ) * d)
    nlinarith [mul_nonneg hsr (by linarith : (0 : ℝ) ≤ E + s - t - d)]
  rw [← Int.toNat_add h1 h2]
  exact Int.toNat_le_toNat hsum

lemma write_samples_none (lvl : ℕ → ℝ) (first k n : ℕ) (wave : List ℝ)
    (h : wave.length ≤ first + k) : write_samples lvl first k (n + 1) wave = none := by
  simp only [write_samples, add_at_ge wave (first + k) (lvl k) h]

lemma nth_create_wave (es : List MusicElement) (sr : ℕ) (s : ℝ) (i : ℕ) :
    nth (create_wave es sr s) i = 0 :=
  nth_replicate _ i

/-! ## Claim theorems: oscillators and frequency -/

/-- C2: for every time `t` and frequency `f`, the square oscillator returns
exactly `1` or exactly `-1`, and it returns `1` exactly when the fractional
part of `t * f` is below one half (first half of the period), `-1` in the
second half. -/
theorem square_two_valued (t f : ℝ) :
    (square t f = 1 ∨ square t f = -1) ∧
    square t f = if Int.fract (t * f) < 1 / 2 then 1 else -1 := by
  refine ⟨?_, square_eq_ite t f⟩
  rw [square_eq_ite]
  by_cases h : Int.fract (t * f) < 1 / 2
  · exact Or.inl (if_pos h)
  · exact Or.inr (if_neg h)

/-- C5 counterexample: the claim says `sawtooth(0, f)` is `-1` (the ramp
starting at its minimum); on the code's formula `sawtooth(0, 440) = 0`,
which is not `-1` and not near it. -/
theorem sawtooth_at_zero_counterexample :
    sawtooth 0 440 = 0 ∧ sawtooth 0 440 ≠ -1 := by
  have h : sawtooth 0 440 = 0 := by
    unfold sawtooth
    norm_num
  exact ⟨h, by rw [h]; norm_num⟩

/-- C5 amended: for every frequency `f`, `sawtooth(0, f) = 0`: the
centered-phase formula makes the ramp cross zero at the start of each
period rather than begin at its minimum. -/
theorem sawtooth_at_zero (f : ℝ) : sawtooth 0 f = 0 := by
  unfold sawtooth
  norm_num

/-- C6: for every time `t` and frequency `f ≥ 0`, each of the three
oscillators returns a value in the closed interval `[-1, 1]`. -/
theorem oscillators_bounded (t f : ℝ) (_hf : 0 ≤ f) :
    (-1 ≤ square t f ∧ square t f ≤ 1) ∧
    (-1 ≤ sawtooth t f ∧ sawtooth t f ≤ 1) ∧
    (-1 ≤ triangle t f ∧ triangle t f ≤ 1) := by
  refine ⟨?_, ⟨(sawtooth_bounds t f).1, le_of_lt (sawtooth_bounds t f).2⟩, triangle_bounds t f⟩
  rw [square_eq_ite]
  by_cases h : Int.fract (t * f) < 1 / 2
  · rw [if_pos h]; norm_num
  · rw [if_neg h]; norm_num

/-- C6 witness: the bounds instantiated at `t = 1/3`, `f = 2`. -/
theorem oscillators_bounded_witness :
    (-1 ≤ square (1 / 3) 2 ∧ square (1 / 3) 2 ≤ 1) ∧
    (-1 ≤ sawtooth (1 / 3) 2 ∧ sawtooth (1 / 3) 2 ≤ 1) ∧
    (-1 ≤ triangle (1 / 3) 2 ∧ triangle (1 / 3) 2 ≤ 1) :=
  oscillators_bounded (1 / 3) 2 (by norm_num)

/-- C8: the pitch-to-frequency map is exactly `440 * 2 ^ (pitch / 12)`,
strictly monotone, and sends `0 ↦ 440`, `12 ↦ 880`, `-12 ↦ 220`. -/
theorem frequency_mapping :
    (∀ p : ℝ, get_frequency_from_note p = 440 * (2 : ℝ) ^ (p / 12)) ∧
    StrictMono get_frequency_from_note ∧
    get_frequency_from_note 0 = 440 ∧
    get_frequency_from_note 12 = 880 ∧
    get_frequency_from_note (-12) = 220 := by
  refine ⟨fun _ => rfl, ?_, ?_, ?_, ?_⟩
  · intro a b hab
    unfold get_frequency_from_note
    have h : (2 : ℝ) ^ (a / 12) < 2 ^ (b / 12) := by
      rw [Real.rpow_lt_rpow_left_iff one_lt_two]
      linarith
    exact mul_lt_mul_of_pos_left h (by norm_num)
  · unfold get_frequency_from_note
    rw [zero_div, Real.rpow_zero]; norm_num
  · unfold get_frequency_from_note
    rw [show (12 : ℝ) / 12 = 1 by norm_num, Real.rpow_one]; norm_num
  · unfold get_frequency_from_note
    rw [show (-12 : ℝ) / 12 = -1 by norm_num, Real.rpow_neg_one]; norm_num

/-! ## Claim theorems: rendering -/

/-- C1: the render loop writes `wave[sample] += level` with no bounds
check, so an out-of-range index is NOT skipped: with one event of end
time 1 and trailing silence `-1`, the buffer is allocated empty and the
first write faults (modelled `none`), contradicting the skip-if-out-of-range
contract of the spec. -/
theorem render_bounds_fault :
    render_timeline [⟨WaveFunction.Square, 0, 1, 0⟩] 1 (-1) = none := by
  have hbuf : create_wave [⟨WaveFunction.Square, 0, 1, 0⟩] 1 (-1) = [] := by
    unfold create_wave
    rw [global_extent_single]
    norm_num [rust_as_usize]
  have hre : render_event ((1 : ℕ) : ℝ) [] ⟨WaveFunction.Square, 0, 1, 0⟩ = none := by
    unfold render_event
    have h1 : rust_as_usize (((1 : ℕ) : ℝ) * (1 : ℝ)) = 1 := by
      norm_num [rust_as_usize]
    have h0 : rust_as_usize (((1 : ℕ) : ℝ) * (0 : ℝ)) = 0 := by
      norm_num [rust_as_usize]
    dsimp only
    rw [h0, h1]
    exact write_samples_none _ 0 0 0 [] (by simp)
  unfold render_timeline
  rw [hbuf]
  simp only [render_elements, hre]

/-- C4: rendering an empty timeline with trailing silence `0` yields a
zero-length buffer, and with trailing silence `T ≥ 0` a buffer of exactly
`⌊T * sample_rate⌋` samples, all equal to `0`. -/
theorem render_empty_timeline (sr : ℕ) :
    render_timeline [] sr 0 = some [] ∧
    ∀ T : ℝ, 0 ≤ T →
      render_timeline [] sr T = some (create_wave [] sr T) ∧
      ((create_wave [] sr T).length : ℤ) = ⌊T * (sr : ℝ)⌋ ∧
      ∀ x ∈ create_wave [] sr T, x = 0 := by
  constructor
  · show some (create_wave [] sr 0) = some []
    have h : create_wave [] sr 0 = [] := by
      unfold create_wave
      rw [global_extent_nil]
      norm_num [rust_as_usize]
    rw [h]
  · intro T hT
    refine ⟨rfl, ?_, ?_⟩
    · unfold create_wave
      rw [global_extent_nil, List.length_replicate]
      unfold rust_as_usize
      rw [zero_add]
      exact Int.toNat_of_nonneg (Int.floor_nonneg.mpr (by positivity))
    · intro x hx
      unfold create_wave at hx
      exact List.eq_of_mem_replicate hx

/-- C4 witness: empty timeline at sample rate 2, trailing silence 3. -/
theorem render_empty_timeline_witness :
    render_timeline [] 2 0 = some [] ∧
    (render_timeline [] 2 3 = some (create_wave [] 2 3) ∧
      ((create_wave [] 2 3).length : ℤ) = ⌊(3 : ℝ) * ((2 : ℕ) : ℝ)⌋ ∧
      ∀ x ∈ create_wave [] 2 3, x = 0) :=
  ⟨(render_empty_timeline 2).1, (render_empty_timeline 2).2 3 (by norm_num)⟩

/-- C9: `add_music_element` performs no validation and cannot fail: for
every shape, start time, duration and pitch it appends exactly one new
element at the back; and a nonpositive duration renders as an empty
(degenerate) contribution, leaving the buffer untouched. -/
theorem append_no_validation (g : Generator) (function : WaveFunction) (t d p : ℝ) :
    (add_music_element g function t d p).elements = g.elements ++ [⟨function, t, d, p⟩] ∧
    ∀ (sr : ℝ) (wave : List ℝ), 0 ≤ sr → d ≤ 0 →
      render_event sr wave ⟨function, t, d, p⟩ = some wave := by
  refine ⟨rfl, fun sr wave hsr hd => ?_⟩
  unfold render_event
  have hcnt : rust_as_usize (sr * d) = 0 := by
    unfold rust_as_usize
    rw [Int.toNat_eq_zero]
    calc ⌊sr * d⌋ ≤ ⌊(0 : ℝ)⌋ :=
          Int.floor_le_floor (mul_nonpos_iff.mpr (Or.inl ⟨hsr, hd⟩))
      _ = 0 := Int.floor_zero
  dsimp only
  rw [hcnt]
  rfl

/-- C9 witness: appending a zero-duration event at negative start time
succeeds and renders as no contribution. -/
theorem append_no_validation_witness :
    (add_music_element ⟨[]⟩ WaveFunction.Square (-1) 0 5).elements =
      ([] : List MusicElement) ++ [⟨WaveFunction.Square, -1, 0, 5⟩] ∧
    render_event 2 [(0 : ℝ)] ⟨WaveFunction.Square, -1, 0, 5⟩ = some [(0 : ℝ)] :=
  ⟨(append_no_validation ⟨[]⟩ WaveFunction.Square (-1) 0 5).1,
   (append_no_validation ⟨[]⟩ WaveFunction.Square (-1) 0 5).2 2 [(0 : ℝ)]
     (by norm_num) (by norm_num)⟩

/-- C10: the float-to-index casts saturate at zero: an event with negative
duration has `(sr * duration) as usize = 0`, hence
`last_sample = first_sample` and an untouched buffer; an event with
negative start time and positive duration is clamped to
`first_sample = 0` and contributes its full `(sr * duration) as usize`
samples starting at index 0. -/
theorem negative_saturation (sr : ℝ) (wave : List ℝ) (e1 e2 : MusicElement)
    (hsr : 0 ≤ sr) (hd1 : e1.duration < 0) (ht2 : e2.time < 0) (_hd2 : 0 < e2.duration)
    (hfit : rust_as_usize (sr * e2.duration) ≤ wave.length) :
    rust_as_usize (sr * e1.duration) = 0 ∧
    render_event sr wave e1 = some wave ∧
    rust_as_usize (sr * e2.time) = 0 ∧
    ∃ w, render_event sr wave e2 = some w ∧ w.length = wave.length ∧
      ∀ i, nth w i = nth wave i +
        (if i < rust_as_usize (sr * e2.duration) then
          apply_wave_function e2.function ((i : ℝ) / sr) (get_frequency_from_note e2.note)
        else 0) := by
  have hz1 : rust_as_usize (sr * e1.duration) = 0 := by
    unfold rust_as_usize
    rw [Int.toNat_eq_zero]
    calc ⌊sr * e1.duration⌋ ≤ ⌊(0 : ℝ)⌋ :=
          Int.floor_le_floor (mul_nonpos_iff.mpr (Or.inl ⟨hsr, hd1.le⟩))
      _ = 0 := Int.floor_zero
  have hz2 : rust_as_usize (sr * e2.time) = 0 := by
    unfold rust_as_usize
    rw [Int.toNat_eq_zero]
    calc ⌊sr * e2.time⌋ ≤ ⌊(0 : ℝ)⌋ :=
          Int.floor_le_floor (mul_nonpos_iff.mpr (Or.inl ⟨hsr, ht2.le⟩))
      _ = 0 := Int.floor_zero
  refine ⟨hz1, ?_, hz2, ?_⟩
  · unfold render_event
    rw [hz1]
    rfl
  · obtain ⟨w, hw, hlen, hnth⟩ := render_event_spec sr wave e2 (by rw [hz2]; simpa using hfit)
    refine ⟨w, hw, hlen, fun i => ?_⟩
    rw [hnth i]
    unfold event_contrib
    rw [hz2]
    simp only [Nat.zero_le, true_and, Nat.sub_zero, Nat.zero_add, zero_add]

/-- C10 witness: at sample rate 2 over a 3-sample buffer, a duration `-1`
event writes nothing and a start-time `-1`, duration `3/2` event is
clamped to index 0 with 3 contributed samples. -/
theorem negative_saturation_witness :
    rust_as_usize ((2 : ℝ) * (MusicElement.mk WaveFunction.Square 0 (-1) 0).duration) = 0 ∧
    render_event 2 [(0 : ℝ), 0, 0] ⟨WaveFunction.Square, 0, -1, 0⟩ =
      some [(0 : ℝ), 0, 0] ∧
    rust_as_usize ((2 : ℝ) * (MusicElement.mk WaveFunction.Square (-1) (3 / 2) 0).time) = 0 ∧
    ∃ w, render_event 2 [(0 : ℝ), 0, 0] ⟨WaveFunction.Square, -1, 3 / 2, 0⟩ = some w ∧
      w.length = ([(0 : ℝ), 0, 0] : List ℝ).length ∧
      ∀ i, nth w i = nth [(0 : ℝ), 0, 0] i +
        (if i < rust_as_usize ((2 : ℝ) * (MusicElement.mk WaveFunction.Square (-1) (3 / 2) 0).duration) then
          apply_wave_function WaveFunction.Square ((i : ℝ) / 2)
            (get_frequency_from_note 0)
        else 0) :=
  negative_saturation 2 [(0 : ℝ), 0, 0] ⟨WaveFunction.Square, 0, -1, 0⟩
    ⟨WaveFunction.Square, -1, 3 / 2, 0⟩
    (by norm_num) (by show (-1 : ℝ) < 0; norm_num) (by show (-1 : ℝ) < 0; norm_num)
    (by show (0 : ℝ) < 3 / 2; norm_num)
    (by show rust_as_usize ((2 : ℝ) * (3 / 2)) ≤ 3; norm_num [rust_as_usize])

/-- C3: additive mixing law: for events with nonnegative start times and
durations (and nonnegative trailing silence), rendering the two-event
timeline succeeds, and at every index covered by both single-event
renders the mixed buffer is the sample-wise sum of the two independent
renders; swapping the two events yields the identical buffer. -/
theorem additive_mixing (e1 e2 : MusicElement) (sr : ℕ) (s : ℝ)
    (h1t : 0 ≤ e1.time) (h1d : 0 ≤ e1.duration)
    (h2t : 0 ≤ e2.time) (h2d : 0 ≤ e2.duration) (hs : 0 ≤ s) :
    ∃ b b1 b2,
      render_timeline [e1, e2] sr s = some b ∧
      render_timeline [e1] sr s = some b1 ∧
      render_timeline [e2] sr s = some b2 ∧
      (∀ i, i < b1.length → i < b2.length → nth b i = nth b1 i + nth b2 i) ∧
      render_timeline [e2, e1] sr s = some b := by
  have hE12_1 : e1.time + e1.duration ≤ global_extent [e1, e2] := by
    rw [global_extent_pair]
    exact le_trans (le_max_right 0 _) (le_max_left _ _)
  have hE12_2 : e2.time + e2.duration ≤ global_extent [e1, e2] := by
    rw [global_extent_pair]
    exact le_max_right _ _
  have hE21_1 : e1.time + e1.duration ≤ global_extent [e2, e1] := by
    rw [global_extent_pair]
    exact le_max_right _ _
  have hE21_2 : e2.time + e2.duration ≤ global_extent [e2, e1] := by
    rw [global_extent_pair]
    exact le_trans (le_max_right 0 _) (le_max_left _ _)
  have hE1 : e1.time + e1.duration ≤ global_extent [e1] := by
    rw [global_extent_single]
    exact le_max_right _ _
  have hE2 : e2.time + e2.duration ≤ global_extent [e2] := by
    rw [global_extent_single]
    exact le_max_right _ _
  have hlen_cw : ∀ es : List MusicElement,
      (create_wave es sr s).length = rust_as_usize ((global_extent es + s) * (sr : ℝ)) := by
    intro es
    unfold create_wave
    exact List.length_replicate _ _
  have hbound12 : ∀ e ∈ [e1, e2],
      rust_as_usize ((sr : ℝ) * e.time) + rust_as_usize ((sr : ℝ) * e.duration) ≤
        (create_wave [e1, e2] sr s).length := by
    intro e he
    rw [hlen_cw]
    rcases (by simpa using he : e = e1 ∨ e = e2) with rfl | rfl
    · exact index_bound sr _ _ _ s h1t h1d hE12_1 hs
    · exact index_bound sr _ _ _ s h2t h2d hE12_2 hs
  have hbound21 : ∀ e ∈ [e2, e1],
      rust_as_usize ((sr : ℝ) * e.time) + rust_as_usize ((sr : ℝ) * e.duration) ≤
        (create_wave [e2, e1] sr s).length := by
    intro e he
    rw [hlen_cw]
    rcases (by simpa using he : e = e2 ∨ e = e1) with rfl | rfl
    · exact index_bound sr _ _ _ s h2t h2d hE21_2 hs
    · exact index_bound sr _ _ _ s h1t h1d hE21_1 hs
  have hbound1 : ∀ e ∈ [e1],
      rust_as_usize ((sr : ℝ) * e.time) + rust_as_usize ((sr : ℝ) * e.duration) ≤
        (create_wave [e1] sr s).length := by
    intro e he
    rw [hlen_cw]
    rcases (by simpa using he : e = e1) with rfl
    exact index_bound sr _ _ _ s h1t h1d hE1 hs
  have hbound2 : ∀ e ∈ [e2],
      rust_as_usize ((sr : ℝ) * e.time) + rust_as_usize ((sr : ℝ) * e.duration) ≤
        (create_wave [e2] sr s).length := by
    intro e he
    rw [hlen_cw]
    rcases (by simpa using he : e = e2) with rfl
    exact index_bound sr _ _ _ s h2t h2d hE2 hs
  obtain ⟨b, hb, hblen, hbnth⟩ :=
    render_elements_spec (sr : ℝ) [e1, e2] (create_wave [e1, e2] sr s) hbound12
  obtain ⟨b', hb', hb'len, hb'nth⟩ :=
    render_elements_spec (sr : ℝ) [e2, e1] (create_wave [e2, e1] sr s) hbound21
  obtain ⟨b1, hb1, hb1len, hb1nth⟩ :=
    render_elements_spec (sr : ℝ) [e1] (create_wave [e1] sr s) hbound1
  obtain ⟨b2, hb2, hb2len, hb2nth⟩ :=
    render_elements_spec (sr : ℝ) [e2] (create_wave [e2] sr s) hbound2
  have hnth_b : ∀ i, nth b i =
      event_contrib (sr : ℝ) e1 i + event_contrib (sr : ℝ) e2 i := by
    intro i
    rw [hbnth i, nth_create_wave]
    simp only [List.map_cons, List.map_nil, List.sum_cons, List.sum_nil]
    ring
  have hnth_b' : ∀ i, nth b' i =
      event_contrib (sr : ℝ) e1 i + event_contrib (sr : ℝ) e2 i := by
    intro i
    rw [hb'nth i, nth_create_wave]
    simp only [List.map_cons, List.map_nil, List.sum_cons, List.sum_nil]
    ring
  have hnth_b1 : ∀ i, nth b1 i = event_contrib (sr : ℝ) e1 i := by
    intro i
    rw [hb1nth i, nth_create_wave]
    simp only [List.map_cons, List.map_nil, List.sum_cons, List.sum_nil]
    ring
  have hnth_b2 : ∀ i, nth b2 i = event_contrib (sr : ℝ) e2 i := by
    intro i
    rw [hb2nth i, nth_create_wave]
    simp only [List.map_cons, List.map_nil, List.sum_cons, List.sum_nil]
    ring
  have hcw_swap : create_wave [e2, e1] sr s = create_wave [e1, e2] sr s := by
    unfold create_wave
    rw [global_extent_pair, global_extent_pair, max_assoc, max_assoc,
      max_comm (e2.time + e2.duration)]
  have hb'b : b' = b := by
    apply List.ext_getElem
    · rw [hblen, hb'len, hcw_swap]
    · intro i hi1 hi2
      rw [← nth_eq_getElem b' i hi1, ← nth_eq_getElem b i hi2, hnth_b' i, hnth_b i]
  refine ⟨b, b1, b2, hb, hb1, hb2, fun i _ _ => ?_, ?_⟩
  · rw [hnth_b i, hnth_b1 i, hnth_b2 i]
  · show render_elements ((sr : ℕ) : ℝ) [e2, e1] (create_wave [e2, e1] sr s) = some b
    rw [← hb'b]
    exact hb'

/-- C3 witness: two overlapping unit-duration square events at sample
rate 2 with unit trailing silence. -/
theorem additive_mixing_witness :
    ∃ b b1 b2,
      render_timeline [⟨WaveFunction.Square, 0, 1, 0⟩, ⟨WaveFunction.Square, 1 / 2, 1, 0⟩]
        2 1 = some b ∧
      render_timeline [⟨WaveFunction.Square, 0, 1, 0⟩] 2 1 = some b1 ∧
      render_timeline [⟨WaveFunction.Square, 1 / 2, 1, 0⟩] 2 1 = some b2 ∧
      (∀ i, i < b1.length → i < b2.length → nth b i = nth b1 i + nth b2 i) ∧
      render_timeline [⟨WaveFunction.Square, 1 / 2, 1, 0⟩, ⟨WaveFunction.Square, 0, 1, 0⟩]
        2 1 = some b :=
  additive_mixing ⟨WaveFunction.Square, 0, 1, 0⟩ ⟨WaveFunction.Square, 1 / 2, 1, 0⟩ 2 1
    (by show (0 : ℝ) ≤ 0; norm_num) (by show (0 : ℝ) ≤ 1; norm_num)
    (by show (0 : ℝ) ≤ 1 / 2; norm_num) (by show (0 : ℝ) ≤ 1; norm_num)
    (by norm_num)

/-- C7: `render` is deterministic and read-only: it returns the generator
state unchanged, a second call on the returned state yields the identical
buffer, and any generator with the same event list renders to the same
buffer. -/
theorem render_deterministic (g g' : Generator) (sr : ℕ) (s : ℝ) :
    (render g sr s).2 = g ∧
    (render ((render g sr s).2) sr s).1 = (render g sr s).1 ∧
    (g.elements = g'.elements → (render g sr s).1 = (render g' sr s).1) := by
  refine ⟨rfl, rfl, fun h => ?_⟩
  unfold render render_timeline
  rw [h]

/-- C7 witness: the determinism and read-only facts at an empty generator. -/
theorem render_deterministic_witness :
    (render ⟨[]⟩ 1 0).2 = (⟨[]⟩ : Generator) ∧
    (render ((render ⟨[]⟩ 1 0).2) 1 0).1 = (render ⟨[]⟩ 1 0).1 ∧
    (render ⟨[]⟩ 1 0).1 = (render ⟨[]⟩ 1 0).1 :=
  ⟨(render_deterministic ⟨[]⟩ ⟨[]⟩ 1 0).1, (render_deterministic ⟨[]⟩ ⟨[]⟩ 1 0).2.1,
   (render_deterministic ⟨[]⟩ ⟨[]⟩ 1 0).2.2 rfl⟩

end Music
